import Mathlib

/-!
Verification of the MCP remote tool-call client duplicated across
`packages/pi-exa-mcp/extensions/index.ts` and the `pi-firecrawl-mcp` client
(listing in `packages/pi-firecrawl-mcp/README.md`), plus the paired
output-bounding and overflow-spill policy.

The embedding models text on the wire as `List Char` (the result of the
incremental UTF-8 decode), JSON values produced by `JSON.parse` as an
inductive `Json`, and the platform `JSON.parse` itself as an arbitrary
function `List Char → Option Json` (returning `none` where `JSON.parse`
would throw).  Whitespace trimming models the ASCII whitespace characters
relevant to SSE framing.
-/

namespace PiMcp

/-- Model of a JavaScript value produced by `JSON.parse`. -/
inductive Json where
  | null : Json
  | bool (b : Bool) : Json
  | num (n : Int) : Json
  | str (s : List Char) : Json
  | arr (items : List Json) : Json
  | obj (fields : List (List Char × Json)) : Json

/-- Function `isRecord` from both sources: a non-null, non-array object. -/
def isRecord : Json → Bool
  | .obj _ => true
  | _ => false

/-- JavaScript property access `v.key` on a parsed JSON value: `some` the
field value on an object that has the key, `none` (undefined) otherwise. -/
def Json.getField : Json → List Char → Option Json
  | .obj fields, key => (fields.find? (fun p => p.1 = key)).map (fun p => p.2)
  | _, _ => none

/-- ASCII whitespace, the subset of JavaScript `trim` relevant on the wire. -/
def isWs (c : Char) : Bool := c == ' ' || c == '\t' || c == '\r' || c == '\n'

/-- JavaScript `String.prototype.trimEnd` (ASCII whitespace). -/
def trimEnd (l : List Char) : List Char := (l.reverse.dropWhile isWs).reverse

/-- JavaScript `String.prototype.trim` (ASCII whitespace). -/
def trim (l : List Char) : List Char := trimEnd (l.dropWhile isWs)

/-- The test `parsed.id === requestId` where `requestId` is a string: true exactly when
the `id` field exists and is that string. -/
def idMatches (j : Json) (requestId : List Char) : Bool :=
  match j.getField ("id".toList) with
  | some (.str s) => s = requestId
  | _ => false

/-- One SSE line attempt, as in `parseLine` of the firecrawl client
(`pi-firecrawl-mcp/README.md:908-928`); the exa client inlines the identical
logic (`pi-exa-mcp/extensions/index.ts:601-619`).  The argument is the line
already `trimEnd`ed by the caller, as at both call sites in the source. -/
def parseLine (p : List Char → Option Json) (requestId : List Char)
    (line : List Char) : Option Json :=
  if line.take 5 = "data:".toList then
    let data := trim (line.drop 5)
    if data = [] ∨ data = "[DONE]".toList then none
    else
      match p data with
      | some parsed =>
          if isRecord parsed && idMatches parsed requestId then some parsed else none
      | none => none
  else none

/-- Prepend a non-newline character to the first complete line when one
exists, otherwise to the residual buffer. -/
def consLine (c : Char) : List (List Char) × List Char → List (List Char) × List Char
  | ([], r) => ([], c :: r)
  | (l :: ls, r) => ((c :: l) :: ls, r)

/-- The buffer-splitting loop of `parseSseResponse`: repeatedly slice off the
text before each newline; returns the complete lines in order and the
residual buffer after the last newline. -/
def splitCompleteLines : List Char → List (List Char) × List Char
  | [] => ([], [])
  | c :: rest =>
    if c = '\n' then ([] :: (splitCompleteLines rest).1, (splitCompleteLines rest).2)
    else consLine c (splitCompleteLines rest)

/-- Scanning the complete lines produced for one chunk, returning the first
accepted frame; each line is `trimEnd`ed exactly as at the source call
sites. -/
def scanLines (p : List Char → Option Json) (rid : List Char) :
    List (List Char) → Option Json
  | [] => none
  | l :: ls =>
    match parseLine p rid (trimEnd l) with
    | some j => some j
    | none => scanLines p rid ls

/-- The error thrown when the stream ends without a matching frame. -/
def sseNoMatchMsg : List Char :=
  "MCP SSE response ended without a matching result.".toList

/-- Chunk loop of the exa `parseSseResponse`
(`pi-exa-mcp/extensions/index.ts:588-627`).  On stream end the residual
buffer is discarded: the trailing `if (matched) return matched` in the
source is unreachable because a match returns from inside the loop. -/
def parseSseExaGo (p : List Char → Option Json) (rid : List Char) :
    List Char → List (List Char) → Except (List Char) Json
  | _, [] => .error sseNoMatchMsg
  | buffer, chunk :: rest =>
    let res := splitCompleteLines (buffer ++ chunk)
    match scanLines p rid res.1 with
    | some j => .ok j
    | none => parseSseExaGo p rid res.2 rest

/-- Function `parseSseResponse` of `pi-exa-mcp/extensions/index.ts:578-628`, as a
function of the decoded stream chunks. -/
def parseSseResponseExa (p : List Char → Option Json) (rid : List Char)
    (chunks : List (List Char)) : Except (List Char) Json :=
  parseSseExaGo p rid [] chunks

/-- Chunk loop of the firecrawl `parseSseResponse`
(`pi-firecrawl-mcp/README.md:930-959`).  On stream end the residual buffer is
`trimEnd`ed and, if nonempty, given one final `parseLine` attempt. -/
def parseSseFcGo (p : List Char → Option Json) (rid : List Char) :
    List Char → List (List Char) → Except (List Char) Json
  | buffer, [] =>
    let remaining := trimEnd buffer
    if remaining ≠ [] then
      match parseLine p rid remaining with
      | some j => .ok j
      | none => .error sseNoMatchMsg
    else .error sseNoMatchMsg
  | buffer, chunk :: rest =>
    let res := splitCompleteLines (buffer ++ chunk)
    match scanLines p rid res.1 with
    | some j => .ok j
    | none => parseSseFcGo p rid res.2 rest

/-- Function `parseSseResponse` of `pi-firecrawl-mcp/README.md:899-960`. -/
def parseSseResponseFirecrawl (p : List Char → Option Json) (rid : List Char)
    (chunks : List (List Char)) : Except (List Char) Json :=
  parseSseFcGo p rid [] chunks

theorem splitCompleteLines_eq_nil (l : List Char) (h : '\n' ∉ l) :
    splitCompleteLines l = ([], l) := by
  induction l with
  | nil => rfl
  | cons c rest ih =>
    have hc : c ≠ '\n' := fun hcn => h (hcn ▸ List.mem_cons_self c rest)
    have hr : '\n' ∉ rest := fun hm => h (List.mem_cons_of_mem c hm)
    simp [splitCompleteLines, ih hr, hc, consLine]

theorem newline_not_mem_residual (l : List Char) :
    '\n' ∉ (splitCompleteLines l).2 := by
  induction l with
  | nil => simp [splitCompleteLines]
  | cons c rest ih =>
    by_cases hc : c = '\n'
    · simp only [splitCompleteLines, hc, if_true]
      exact ih
    · rcases hsr : splitCompleteLines rest with ⟨L, R⟩
      rw [hsr] at ih
      cases L with
      | nil =>
        simp only [splitCompleteLines, hc, if_false, hsr, consLine]
        intro hm
        rcases List.mem_cons.mp hm with h1 | h2
        · exact hc h1.symm
        · exact ih h2
      | cons l0 ls =>
        simp only [splitCompleteLines, hc, if_false, hsr, consLine]
        exact ih

theorem splitCompleteLines_append (a b : List Char) :
    splitCompleteLines (a ++ b) =
      ((splitCompleteLines a).1 ++
        (splitCompleteLines ((splitCompleteLines a).2 ++ b)).1,
       (splitCompleteLines ((splitCompleteLines a).2 ++ b)).2) := by
  induction a with
  | nil => simp [splitCompleteLines]
  | cons c rest ih =>
    by_cases hc : c = '\n'
    · simp [splitCompleteLines, hc, ih]
    · rcases hsr : splitCompleteLines rest with ⟨L, R⟩
      rw [hsr] at ih
      cases L with
      | nil =>
        rcases hq : splitCompleteLines (R ++ b) with ⟨Q1, Q2⟩
        rw [hq] at ih
        simp only [List.nil_append] at ih
        cases Q1 <;>
          simp [List.cons_append, splitCompleteLines, hc, hsr, consLine, hq, ih]
      | cons l0 ls =>
        simp [List.cons_append, splitCompleteLines, hc, hsr, consLine, ih]

theorem scanLines_append (p : List Char → Option Json) (rid : List Char)
    (xs ys : List (List Char)) :
    scanLines p rid (xs ++ ys) =
      match scanLines p rid xs with
      | some j => some j
      | none => scanLines p rid ys := by
  induction xs with
  | nil => simp [scanLines]
  | cons l ls ih =>
    simp only [List.cons_append, scanLines]
    cases parseLine p rid (trimEnd l) with
    | some j => rfl
    | none => exact ih

theorem parseSseExaGo_eq (p : List Char → Option Json) (rid : List Char)
    (chunks : List (List Char)) :
    ∀ (buffer : List Char), '\n' ∉ buffer →
      parseSseExaGo p rid buffer chunks =
        match scanLines p rid (splitCompleteLines (buffer ++ chunks.flatten)).1 with
        | some j => .ok j
        | none => .error sseNoMatchMsg := by
  induction chunks with
  | nil =>
    intro buffer hb
    simp [parseSseExaGo, splitCompleteLines_eq_nil buffer hb, scanLines]
  | cons chunk rest ih =>
    intro buffer hb
    have hassoc : buffer ++ (chunk :: rest).flatten =
        (buffer ++ chunk) ++ rest.flatten := by
      simp [List.flatten_cons, List.append_assoc]
    rw [hassoc, splitCompleteLines_append (buffer ++ chunk) rest.flatten]
    simp only [parseSseExaGo, scanLines_append]
    cases hscan : scanLines p rid (splitCompleteLines (buffer ++ chunk)).1 with
    | some j => simp [hscan]
    | none =>
      simp only [hscan]
      exact ih _ (newline_not_mem_residual (buffer ++ chunk))

theorem parseSseFcGo_eq (p : List Char → Option Json) (rid : List Char)
    (chunks : List (List Char)) :
    ∀ (buffer : List Char), '\n' ∉ buffer →
      parseSseFcGo p rid buffer chunks =
        match scanLines p rid (splitCompleteLines (buffer ++ chunks.flatten)).1 with
        | some j => .ok j
        | none =>
          if trimEnd (splitCompleteLines (buffer ++ chunks.flatten)).2 ≠ [] then
            match parseLine p rid
                (trimEnd (splitCompleteLines (buffer ++ chunks.flatten)).2) with
            | some j => .ok j
            | none => .error sseNoMatchMsg
          else .error sseNoMatchMsg := by
  induction chunks with
  | nil =>
    intro buffer hb
    simp [parseSseFcGo, splitCompleteLines_eq_nil buffer hb, scanLines]
  | cons chunk rest ih =>
    intro buffer hb
    have hassoc : buffer ++ (chunk :: rest).flatten =
        (buffer ++ chunk) ++ rest.flatten := by
      simp [List.flatten_cons, List.append_assoc]
    rw [hassoc, splitCompleteLines_append (buffer ++ chunk) rest.flatten]
    simp only [parseSseFcGo, scanLines_append]
    cases hscan : scanLines p rid (splitCompleteLines (buffer ++ chunk)).1 with
    | some j => simp [hscan]
    | none =>
      simp only [hscan]
      exact ih _ (newline_not_mem_residual (buffer ++ chunk))

theorem scanLines_of_split (p : List Char → Option Json) (rid : List Char)
    (pre : List (List Char)) (frame : List Char) (post : List (List Char))
    (v : Json) (hpre : ∀ l ∈ pre, parseLine p rid (trimEnd l) = none)
    (hframe : parseLine p rid (trimEnd frame) = some v) :
    scanLines p rid (pre ++ frame :: post) = some v := by
  induction pre with
  | nil => simp [scanLines, hframe]
  | cons l ls ih =>
    have hl : parseLine p rid (trimEnd l) = none := hpre l (List.mem_cons_self l ls)
    simp only [List.cons_append, scanLines, hl]
    exact ih (fun x hx => hpre x (List.mem_cons_of_mem l hx))

theorem scanLines_all_none (p : List Char → Option Json) (rid : List Char)
    (ls : List (List Char)) (h : ∀ l ∈ ls, parseLine p rid (trimEnd l) = none) :
    scanLines p rid ls = none := by
  induction ls with
  | nil => rfl
  | cons l rest ih =>
    have hl : parseLine p rid (trimEnd l) = none := h l (List.mem_cons_self l rest)
    simp only [scanLines, hl]
    exact ih (fun x hx => h x (List.mem_cons_of_mem l hx))

theorem parseLine_nil (p : List Char → Option Json) (rid : List Char) :
    parseLine p rid [] = none := rfl

/-- Claim C2: in both SSE decoders, a stream containing a well-formed,
newline-terminated `data:` frame whose id equals the request id decodes to
that frame's parsed object no matter how many malformed or non-matching
frames precede it, and a stream containing no matching frame at all fails
with the protocol error only at stream end. -/
theorem sse_matching_frame_decoded (p : List Char → Option Json) (rid : List Char) :
    (∀ (chunks pre post : List (List Char)) (frame : List Char) (v : Json),
        (splitCompleteLines chunks.flatten).1 = pre ++ frame :: post →
        (∀ l ∈ pre, parseLine p rid (trimEnd l) = none) →
        parseLine p rid (trimEnd frame) = some v →
        parseSseResponseExa p rid chunks = .ok v ∧
        parseSseResponseFirecrawl p rid chunks = .ok v) ∧
    (∀ chunks : List (List Char),
        (∀ l ∈ (splitCompleteLines chunks.flatten).1,
            parseLine p rid (trimEnd l) = none) →
        parseLine p rid (trimEnd (splitCompleteLines chunks.flatten).2) = none →
        parseSseResponseExa p rid chunks = .error sseNoMatchMsg ∧
        parseSseResponseFirecrawl p rid chunks = .error sseNoMatchMsg) := by
  have hb : '\n' ∉ ([] : List Char) := by simp
  constructor
  · intro chunks pre post frame v hsplit hpre hframe
    have hexa := parseSseExaGo_eq p rid chunks [] hb
    have hfc := parseSseFcGo_eq p rid chunks [] hb
    rw [List.nil_append] at hexa hfc
    have hscan : scanLines p rid (splitCompleteLines chunks.flatten).1 = some v := by
      rw [hsplit]
      exact scanLines_of_split p rid pre frame post v hpre hframe
    constructor
    · show parseSseExaGo p rid [] chunks = _
      rw [hexa, hscan]
    · show parseSseFcGo p rid [] chunks = _
      rw [hfc, hscan]
  · intro chunks hall hres
    have hexa := parseSseExaGo_eq p rid chunks [] hb
    have hfc := parseSseFcGo_eq p rid chunks [] hb
    rw [List.nil_append] at hexa hfc
    have hscan := scanLines_all_none p rid _ hall
    constructor
    · show parseSseExaGo p rid [] chunks = _
      rw [hexa, hscan]
    · show parseSseFcGo p rid [] chunks = _
      rw [hfc, hscan]
      simp [hres]

/-- Demo request id used by the concrete SSE witnesses. -/
def rid2 : List Char := "x-2".toList

/-- Parsed form of the non-matching demo frame. -/
def frameX1 : Json := .obj [("id".toList, .str "x-1".toList)]

/-- Parsed form of the matching demo frame. -/
def frameX2 : Json :=
  .obj [("id".toList, .str "x-2".toList), ("result".toList, .num 7)]

/-- A concrete stand-in for the platform `JSON.parse` on the demo payloads:
parses the two demo frames and throws (returns `none`) on anything else. -/
def demoParse : List Char → Option Json := fun s =>
  if s = "\x7b\"id\":\"x-1\"\x7d".toList then some frameX1
  else if s = "\x7b\"id\":\"x-2\",\"result\":7\x7d".toList then some frameX2
  else none

/-- Demo stream: a malformed frame and a non-matching frame precede the
matching frame; a further frame follows it. -/
def chunksC2 : List (List Char) :=
  ["data: \x7bmalformed\ndata: \x7b\"id\":\"x-1\"\x7d\n".toList,
   "data: \x7b\"id\":\"x-2\",\"result\":7\x7d\ndata: ignored\n".toList]

/-- Demo stream with no matching frame at all. -/
def chunksNoMatch : List (List Char) :=
  ["data: \x7b\"id\":\"x-1\"\x7d\ndata: junk\n".toList]

theorem sse_matching_frame_decoded_witness :
    (parseSseResponseExa demoParse rid2 chunksC2 = .ok frameX2 ∧
     parseSseResponseFirecrawl demoParse rid2 chunksC2 = .ok frameX2) ∧
    (parseSseResponseExa demoParse rid2 chunksNoMatch = .error sseNoMatchMsg ∧
     parseSseResponseFirecrawl demoParse rid2 chunksNoMatch = .error sseNoMatchMsg) := by
  constructor
  · exact (sse_matching_frame_decoded demoParse rid2).1 chunksC2
      ["data: \x7bmalformed".toList, "data: \x7b\"id\":\"x-1\"\x7d".toList]
      ["data: ignored".toList]
      ("data: \x7b\"id\":\"x-2\",\"result\":7\x7d".toList) frameX2 rfl
      (by
        intro l hl
        fin_cases hl <;> rfl)
      rfl
  · exact (sse_matching_frame_decoded demoParse rid2).2 chunksNoMatch
      (by
        intro l hl
        rw [show (splitCompleteLines chunksNoMatch.flatten).1 =
          ["data: \x7b\"id\":\"x-1\"\x7d".toList, "data: junk".toList] from rfl] at hl
        fin_cases hl <;> rfl)
      rfl

/-- A well-formed matching frame that is the stream's last data frame and is
not newline-terminated. -/
def chunkC1 : List Char := "data: \x7b\"id\":\"x-2\",\"result\":7\x7d".toList

/-- Claim C1, counterexample: on a stream whose only (well-formed, matching)
frame is not newline-terminated, the exa decoder declares failure without
giving the residual buffer a final parse attempt, even though the identical
residual is accepted by `parseLine` and by the firecrawl decoder. -/
theorem sse_exa_residual_dropped_cex :
    parseLine demoParse rid2 (trimEnd chunkC1) = some frameX2 ∧
    parseSseResponseFirecrawl demoParse rid2 [chunkC1] = .ok frameX2 ∧
    parseSseResponseExa demoParse rid2 [chunkC1] = .error sseNoMatchMsg :=
  ⟨rfl, rfl, rfl⟩

/-- Claim C1 (amended): after stream end, only the firecrawl decoder gives
the residual buffered data one final parse attempt and returns the frame if
it is well formed and matching; the exa decoder parses newline-terminated
lines only and fails on the same stream. -/
theorem sse_residual_final_parse (p : List Char → Option Json) (rid : List Char)
    (chunks : List (List Char)) (v : Json)
    (hall : ∀ l ∈ (splitCompleteLines chunks.flatten).1,
        parseLine p rid (trimEnd l) = none)
    (hres : parseLine p rid (trimEnd (splitCompleteLines chunks.flatten).2) = some v) :
    parseSseResponseFirecrawl p rid chunks = .ok v ∧
    parseSseResponseExa p rid chunks = .error sseNoMatchMsg := by
  have hb : '\n' ∉ ([] : List Char) := by simp
  have hexa := parseSseExaGo_eq p rid chunks [] hb
  have hfc := parseSseFcGo_eq p rid chunks [] hb
  rw [List.nil_append] at hexa hfc
  have hscan := scanLines_all_none p rid _ hall
  have hne : trimEnd (splitCompleteLines chunks.flatten).2 ≠ [] := by
    intro h
    rw [h, parseLine_nil] at hres
    exact Option.noConfusion hres
  constructor
  · show parseSseFcGo p rid [] chunks = _
    rw [hfc, hscan]
    simp [hne, hres]
  · show parseSseExaGo p rid [] chunks = _
    rw [hexa, hscan]

/-- Demo stream for the residual parse: one non-matching complete line, then
an unterminated matching frame. -/
def chunksC1w : List (List Char) := ["data: junk\n".toList ++ chunkC1]

/-!
Section: Overflow store: `writeTempFile`
(`pi-exa-mcp/extensions/index.ts:202-208`, `pi-firecrawl-mcp/README.md:472-478`)

Both copies build the file name as
`<tag>-${safeName}-${Date.now()}.txt` where `safeName` replaces every
character outside `[a-z0-9_-]` (case-insensitive) with `_` and `Date.now()`
is the millisecond timestamp.  The path is the temp directory joined with
this name, so two invocations collide exactly when their names do.
-/

/-- One step of `toolName.replace(/[^a-z0-9_-]/gi, "_")`. -/
def sanitizeChar (c : Char) : Char :=
  if ('a' ≤ c ∧ c ≤ 'z') ∨ ('A' ≤ c ∧ c ≤ 'Z') ∨ ('0' ≤ c ∧ c ≤ '9') ∨
      c = '_' ∨ c = '-' then c
  else '_'

/-- The `safeName` computation of `writeTempFile`. -/
def safeName (toolName : List Char) : List Char := toolName.map sanitizeChar

/-- Decimal digit character. -/
def digitChar : Nat → Char
  | 0 => '0' | 1 => '1' | 2 => '2' | 3 => '3' | 4 => '4'
  | 5 => '5' | 6 => '6' | 7 => '7' | 8 => '8' | _ => '9'

/-- Numeric value of a decimal digit character. -/
def digitVal (c : Char) : Nat := c.toNat - 48

/-- Decimal digits of `n`, most significant first, with explicit fuel so the
definition is structurally recursive and computable by the kernel. -/
def toDecimalAux (fuel n : Nat) : List Char :=
  match fuel with
  | 0 => []
  | fuel + 1 =>
    if n < 10 then [digitChar n]
    else toDecimalAux fuel (n / 10) ++ [digitChar (n % 10)]

/-- The decimal string of `n`, as produced by JavaScript template
interpolation of the integer `Date.now()`. -/
def toDecimal (n : Nat) : List Char := toDecimalAux (n + 1) n

/-- Read a decimal digit string back to a number. -/
def fromDecimal (l : List Char) : Nat := l.foldl (fun a c => 10 * a + digitVal c) 0

theorem digitVal_digitChar (k : Nat) (h : k < 10) : digitVal (digitChar k) = k := by
  interval_cases k <;> rfl

theorem digitChar_isDigit (k : Nat) : (digitChar k).isDigit = true := by
  rcases k with _|_|_|_|_|_|_|_|_|_|k <;> rfl

theorem fromDecimal_toDecimalAux (fuel : Nat) :
    ∀ n, n < fuel → fromDecimal (toDecimalAux fuel n) = n := by
  induction fuel with
  | zero => intro n h; omega
  | succ fuel ih =>
    intro n h
    by_cases h10 : n < 10
    · simp [toDecimalAux, h10, fromDecimal, digitVal_digitChar n h10]
    · have hdiv : n / 10 < n := Nat.div_lt_self (by omega) (by omega)
      have hfuel : n / 10 < fuel := by omega
      simp only [toDecimalAux, h10, if_false, fromDecimal, List.foldl_append]
      have hrec := ih (n / 10) hfuel
      rw [fromDecimal] at hrec
      rw [hrec]
      simp only [List.foldl_cons, List.foldl_nil]
      rw [digitVal_digitChar (n % 10) (Nat.mod_lt n (by omega))]
      omega

theorem toDecimal_injective {t1 t2 : Nat} (h : toDecimal t1 = toDecimal t2) :
    t1 = t2 := by
  have h1 := fromDecimal_toDecimalAux (t1 + 1) t1 (by omega)
  have h2 := fromDecimal_toDecimalAux (t2 + 1) t2 (by omega)
  rw [toDecimal, toDecimal] at h
  rw [h] at h1
  omega

theorem toDecimalAux_all_digits (fuel : Nat) :
    ∀ n c, c ∈ toDecimalAux fuel n → c.isDigit = true := by
  induction fuel with
  | zero => intro n c hc; simp [toDecimalAux] at hc
  | succ fuel ih =>
    intro n c hc
    by_cases h10 : n < 10
    · simp only [toDecimalAux, h10, if_true, List.mem_singleton] at hc
      rw [hc]; exact digitChar_isDigit n
    · simp only [toDecimalAux, h10, if_false, List.mem_append,
        List.mem_singleton] at hc
      rcases hc with hc | hc
      · exact ih (n / 10) c hc
      · rw [hc]; exact digitChar_isDigit (n % 10)

theorem takeWhile_all_append (p : Char → Bool) (xs : List Char) (y : Char)
    (ys : List Char) (hxs : ∀ x ∈ xs, p x = true) (hy : p y = false) :
    (xs ++ y :: ys).takeWhile p = xs := by
  induction xs with
  | nil => simp [List.takeWhile_cons, hy]
  | cons x xs ih =>
    have hx : p x = true := hxs x (List.mem_cons_self x xs)
    simp only [List.cons_append, List.takeWhile_cons, hx, if_true]
    rw [ih (fun z hz => hxs z (List.mem_cons_of_mem x hz))]

/-- The maximal digit-only suffix of a character list. -/
def digitSuffix (l : List Char) : List Char :=
  (l.reverse.takeWhile Char.isDigit).reverse

theorem digitSuffix_append (a d : List Char) (hd : ∀ c ∈ d, c.isDigit = true) :
    digitSuffix (a ++ '-' :: d) = d := by
  unfold digitSuffix
  rw [List.reverse_append, List.reverse_cons, List.append_assoc,
    List.singleton_append]
  rw [takeWhile_all_append Char.isDigit d.reverse '-'
    (a.reverse) (fun c hc => hd c (List.mem_reverse.mp hc)) rfl]
  exact List.reverse_reverse d

/-- The file name built by `writeTempFile`: the package tag is
`pi-exa-mcp` in the exa copy and `pi-firecrawl-mcp` in the firecrawl copy;
the path is this name joined under the OS temp directory. -/
def writeTempFileName (tag toolName : List Char) (now : Nat) : List Char :=
  tag ++ "-".toList ++ safeName toolName ++ "-".toList ++ toDecimal now ++
    ".txt".toList

/-- Claim C3, counterexample: two spill invocations with distinct identifier
hints that land in the same millisecond produce the same file path — the
suffix is only `Date.now()`, so concurrent spills can collide. -/
theorem writeTempFile_collision_cex :
    "a.b".toList ≠ "a,b".toList ∧
    writeTempFileName ("pi-exa-mcp".toList) ("a.b".toList) 1730000000000 =
      writeTempFileName ("pi-exa-mcp".toList) ("a,b".toList) 1730000000000 := by
  constructor
  · decide
  · rfl

/-- Claim C3 (amended): spill invocations with distinct `Date.now()`
timestamps always get distinct file names (for any package tags and any
identifier hints); only spills that share a millisecond can collide, and
they do exactly when their sanitized hints and tags agree. -/
theorem writeTempFileName_shape (tag b d : List Char) :
    tag ++ "-".toList ++ b ++ "-".toList ++ d ++ ".txt".toList =
      ((tag ++ "-".toList ++ b) ++ '-' :: d) ++ ".txt".toList := by
  have hdash : ("-".toList : List Char) = ['-'] := rfl
  rw [hdash]
  simp [List.append_assoc]

theorem writeTempFileName_distinct_times (tag1 tag2 h1 h2 : List Char)
    (t1 t2 : Nat) (hne : t1 ≠ t2) :
    writeTempFileName tag1 h1 t1 ≠ writeTempFileName tag2 h2 t2 := by
  intro heq
  unfold writeTempFileName at heq
  rw [writeTempFileName_shape, writeTempFileName_shape] at heq
  have hstem := List.append_cancel_right heq
  have hd1 := digitSuffix_append (tag1 ++ "-".toList ++ safeName h1)
    (toDecimal t1) (toDecimalAux_all_digits (t1 + 1) t1)
  have hd2 := digitSuffix_append (tag2 ++ "-".toList ++ safeName h2)
    (toDecimal t2) (toDecimalAux_all_digits (t2 + 1) t2)
  rw [hstem] at hd1
  rw [hd2] at hd1
  exact hne (toDecimal_injective hd1).symm

theorem writeTempFileName_distinct_times_witness :
    writeTempFileName ("pi-exa-mcp".toList) ("search".toList) 1000 ≠
      writeTempFileName ("pi-exa-mcp".toList) ("search".toList) 1001 :=
  writeTempFileName_distinct_times _ _ _ _ 1000 1001 (by decide)

theorem sse_residual_final_parse_witness :
    parseSseResponseFirecrawl demoParse rid2 chunksC1w = .ok frameX2 ∧
    parseSseResponseExa demoParse rid2 chunksC1w = .error sseNoMatchMsg :=
  sse_residual_final_parse demoParse rid2 chunksC1w frameX2
    (by
      intro l hl
      rw [show (splitCompleteLines chunksC1w.flatten).1 =
        ["data: junk".toList] from rfl] at hl
      fin_cases hl
      rfl)
    rfl

/-!
Section: Session lifecycle: `ensureInitialized`
(`pi-exa-mcp/extensions/index.ts:421-448`; the firecrawl copy at
`pi-firecrawl-mcp/README.md:732-763` adds abort checks that do not change
these transitions.)

The client is a JavaScript object with mutable fields `requestCounter`,
`initialized`, `initializing` (a promise or null) and `lastEndpoint`.  The
synchronous prefix of `ensureInitialized` — endpoint comparison, reset,
Ready check, and starting the handshake closure up to its first await —
runs atomically, as does the completion of a handshake attempt (the async
closure's tail, its `.catch`, and its `.finally`).  We model the client as
a small-step system whose two actions are exactly those atomic blocks.
Handshake attempts are numbered; `initializing = some a` models the
promise of attempt `a` being registered in the field.  `readyVia` is ghost
state recording which attempt's success last set `initialized = true`.
-/

instance (ε α : Type) [DecidableEq ε] [DecidableEq α] :
    DecidableEq (Except ε α) := fun a b =>
  match a, b with
  | .ok x, .ok y =>
    if h : x = y then isTrue (by rw [h]) else
      isFalse (fun hh => h (by cases hh; rfl))
  | .error x, .error y =>
    if h : x = y then isTrue (by rw [h]) else
      isFalse (fun hh => h (by cases hh; rfl))
  | .ok _, .error _ => isFalse (fun hh => Except.noConfusion hh)
  | .error _, .ok _ => isFalse (fun hh => Except.noConfusion hh)

/-- Network sends observable during the handshake. -/
inductive SEvent where
  | initReq (endpoint : List Char) (attempt : Nat)
  | initNotif (endpoint : List Char) (attempt : Nat)
deriving DecidableEq

/-- The mutable state of the MCP client object, plus bookkeeping for
attempts in flight, coalesced waiters, per-caller results, the event log,
and the ghost `readyVia`. -/
structure ClientSM where
  requestCounter : Nat
  initialized : Bool
  initializing : Option Nat
  lastEndpoint : Option (List Char)
  attempts : List (List Char)
  inflight : List Nat
  waiters : List (Nat × Nat)
  results : List (Nat × Except Nat Unit)
  events : List SEvent
  readyVia : Option Nat
deriving DecidableEq

/-- A fresh client: nothing initialized, no endpoint remembered. -/
def initialState : ClientSM :=
  { requestCounter := 0, initialized := false, initializing := none,
    lastEndpoint := none, attempts := [], inflight := [], waiters := [],
    results := [], events := [], readyVia := none }

/-- The synchronous prefix of `ensureInitialized`, run by caller `caller`
with resolved endpoint `e`:
1. endpoint change resets the session and remembers the new endpoint;
2. if `initialized`, return immediately (no network activity);
3. if a handshake promise is registered, await it (coalesce);
4. otherwise start a new handshake attempt: the `initialize` Request is
   sent synchronously (allocating a request id) and the promise is
   registered. -/
def stepCall (s : ClientSM) (caller : Nat) (e : List Char) : ClientSM :=
  let s1 := if s.lastEndpoint ≠ some e then
      { s with initialized := false, initializing := none, lastEndpoint := some e }
    else s
  if s1.initialized then
    { s1 with results := (caller, Except.ok ()) :: s1.results }
  else
    match s1.initializing with
    | some a => { s1 with waiters := (caller, a) :: s1.waiters }
    | none =>
      let a := s1.attempts.length
      { s1 with
        attempts := s1.attempts ++ [e],
        initializing := some a,
        inflight := s1.inflight ++ [a],
        waiters := (caller, a) :: s1.waiters,
        requestCounter := s1.requestCounter + 1,
        events := s1.events ++ [SEvent.initReq e a] }

/-- Completion of handshake attempt `a`: the async closure's tail sets
`initialized` (true on success, after sending the `initialized`
notification; false via `.catch` on failure), the `.finally` clears the
`initializing` field unconditionally, and every caller awaiting this
attempt's promise receives its outcome. -/
def stepComplete (s : ClientSM) (a : Nat) (outcome : Except Nat Unit) :
    Option ClientSM :=
  if a ∈ s.inflight then
    some { s with
      initialized := match outcome with | .ok _ => true | .error _ => false,
      readyVia := match outcome with | .ok _ => some a | .error _ => s.readyVia,
      initializing := none,
      inflight := s.inflight.filter (fun b => b ≠ a),
      waiters := s.waiters.filter (fun w => w.2 ≠ a),
      results := (s.waiters.filter (fun w => w.2 = a)).map (fun w => (w.1, outcome))
        ++ s.results,
      events := s.events ++
        (match outcome with
         | .ok _ => [SEvent.initNotif (s.attempts.getD a []) a]
         | .error _ => []) }
  else none

/-- Interleaved actions against one client instance. -/
inductive Act where
  | call (caller : Nat) (endpoint : List Char)
  | complete (attempt : Nat) (outcome : Except Nat Unit)
deriving DecidableEq

/-- Run a list of actions from a state; completion of an attempt that is
not in flight is not a valid trace. -/
def runActs : ClientSM → List Act → Option ClientSM
  | s, [] => some s
  | s, .call c e :: rest => runActs (stepCall s c e) rest
  | s, .complete a o :: rest =>
    match stepComplete s a o with
    | some s1 => runActs s1 rest
    | none => none

/-- Claim C4: when a handshake attempt fails, the `catch`/`finally`
handlers leave the session Uninitialized (`initialized = false` and
`initializing = none` — never stuck in Initializing), every caller
coalesced onto that attempt receives that same failure, and a subsequent
`ensureReady`/`callTool` on the remembered endpoint starts a fresh
handshake attempt (a new `initialize` Request is sent). -/
theorem handshake_failure_resets (s s1 : ClientSM) (a err : Nat)
    (hs1 : stepComplete s a (Except.error err) = some s1) :
    s1.initialized = false ∧ s1.initializing = none ∧
    (∀ c, (c, a) ∈ s.waiters → (c, Except.error err) ∈ s1.results) ∧
    (∀ c e, s1.lastEndpoint = some e →
      (stepCall s1 c e).initializing = some s1.attempts.length ∧
      (stepCall s1 c e).events =
        s1.events ++ [SEvent.initReq e s1.attempts.length]) := by
  unfold stepComplete at hs1
  by_cases ha : a ∈ s.inflight
  · rw [if_pos ha] at hs1
    injection hs1 with hs1
    subst hs1
    refine ⟨rfl, rfl, ?_, ?_⟩
    · intro c hc
      apply List.mem_append_left
      refine List.mem_map.mpr ⟨(c, a), ?_, rfl⟩
      rw [List.mem_filter]
      exact ⟨hc, by simp⟩
    · intro c e he
      have he' : s.lastEndpoint = some e := he
      constructor
      · simp [stepCall, he']
      · simp [stepCall, he']
  · rw [if_neg ha] at hs1
    exact absurd hs1 (by simp)

/-- Concrete failed-handshake scenario for the witness. -/
def c4S0 : ClientSM := stepCall initialState 0 ("A".toList)

/-- State after attempt 0 fails with error token 5. -/
def c4S1 : ClientSM := (stepComplete c4S0 0 (Except.error 5)).getD initialState

theorem handshake_failure_resets_witness :
    c4S1.initialized = false ∧ c4S1.initializing = none ∧
    ((0 : Nat), (Except.error 5 : Except Nat Unit)) ∈ c4S1.results ∧
    (stepCall c4S1 1 ("A".toList)).initializing = some c4S1.attempts.length := by
  have h := handshake_failure_resets c4S0 c4S1 0 5 rfl
  exact ⟨h.1, h.2.1, h.2.2.1 0 (by decide),
    (h.2.2.2 1 ("A".toList) (by decide)).1⟩

/-- Claim C5: on a session that is Ready for the current endpoint,
`ensureReady` returns immediately with no network activity (the state
changes only by recording the caller's success), and two sequential
`ensureReady` calls on one endpoint produce exactly one `initialize`
Request and one `initialized` notification in the event log. -/
theorem ensureReady_idempotent_when_ready :
    (∀ (s : ClientSM) (c : Nat) (e : List Char),
        s.initialized = true → s.lastEndpoint = some e →
        stepCall s c e = { s with results := (c, Except.ok ()) :: s.results }) ∧
    (∀ (e : List Char) (c1 c2 : Nat),
        Option.map ClientSM.events
            (runActs initialState
              [Act.call c1 e, Act.complete 0 (Except.ok ()), Act.call c2 e]) =
          some [SEvent.initReq e 0, SEvent.initNotif e 0]) := by
  constructor
  · intro s c e h1 h2
    simp [stepCall, h1, h2]
  · intro e c1 c2
    simp [runActs, stepCall, stepComplete, initialState, List.getD, List.filter]

/-- A client that reached Ready on endpoint `A`. -/
def c5Ready : ClientSM :=
  (runActs initialState
    [Act.call 0 ("A".toList), Act.complete 0 (Except.ok ())]).getD initialState

/-- The interleaving that breaks the Ready/lastEndpoint invariant: caller 0
starts a handshake against `A`; caller 1 arrives with endpoint `B`, which
resets the session and starts a second handshake against `B`; then attempt
0 (against `A`) completes successfully, and its async closure still sets
`initialized = true` while `lastEndpoint` is `B`. -/
def cexRaceS : ClientSM :=
  (runActs initialState
    [Act.call 0 ("A".toList), Act.call 1 ("B".toList),
     Act.complete 0 (Except.ok ())]).getD initialState

/-- Claim C6, counterexample: a reachable state in which the session is
Ready, the attempt that reached Ready ran against endpoint `A`, yet the
remembered `lastEndpoint` is `B` — the invariant fails when the endpoint
changes while a handshake is in flight. -/
theorem ready_endpoint_invariant_cex :
    runActs initialState
        [Act.call 0 ("A".toList), Act.call 1 ("B".toList),
         Act.complete 0 (Except.ok ())] = some cexRaceS ∧
    cexRaceS.initialized = true ∧
    cexRaceS.readyVia = some 0 ∧
    cexRaceS.attempts.getD 0 [] = "A".toList ∧
    cexRaceS.lastEndpoint = some ("B".toList) ∧
    some (cexRaceS.attempts.getD 0 []) ≠ cexRaceS.lastEndpoint :=
  ⟨rfl, by decide, by decide, by decide, by decide, by decide⟩

/-- One sequential use of the client: a caller runs `ensureReady` with an
endpoint, and if that started or joined a handshake, the handshake
completes before the next caller arrives. -/
def seqStep (s : ClientSM) (st : Nat × List Char × Except Nat Unit) :
    Option ClientSM :=
  match (stepCall s st.1 st.2.1).initializing with
  | some a => stepComplete (stepCall s st.1 st.2.1) a st.2.2
  | none => some (stepCall s st.1 st.2.1)

/-- Run sequential steps from a given state. -/
def seqRunFrom : ClientSM → List (Nat × List Char × Except Nat Unit) → Option ClientSM
  | s0, [] => some s0
  | s0, st :: rest =>
    match seqStep s0 st with
    | some s1 => seqRunFrom s1 rest
    | none => none

/-- Run sequential steps from a fresh client. -/
def seqRun (steps : List (Nat × List Char × Except Nat Unit)) : Option ClientSM :=
  seqRunFrom initialState steps

/-- The per-state invariant of sequential (non-overlapping) usage: no
handshake promise registered, no attempt in flight, and a Ready session
remembers exactly the endpoint of the attempt that reached Ready. -/
def SeqInv (s : ClientSM) : Prop :=
  s.initializing = none ∧ s.inflight = [] ∧
  (s.initialized = true →
    ∃ a, s.readyVia = some a ∧ some (s.attempts.getD a []) = s.lastEndpoint)

theorem getD_append_length {α : Type} (xs : List α) (e d : α) :
    (xs ++ [e]).getD xs.length d = e := by
  induction xs with
  | nil => rfl
  | cons x xs ih => simp [List.getD_cons_succ, ih]

theorem seqStep_preserves (s : ClientSM) (c : Nat) (e : List Char)
    (out : Except Nat Unit) (s2 : ClientSM) (hinv : SeqInv s)
    (hstep : seqStep s (c, e, out) = some s2) : SeqInv s2 := by
  obtain ⟨hinit, hinf, hready⟩ := hinv
  by_cases he : s.lastEndpoint = some e
  · by_cases hi : s.initialized = true
    · have hcall : stepCall s c e =
          { s with results := (c, Except.ok ()) :: s.results } := by
        simp [stepCall, he, hi]
      simp only [seqStep, hcall, hinit] at hstep
      injection hstep with hstep
      subst hstep
      exact ⟨rfl, hinf, fun h => hready h⟩
    · have hcall : stepCall s c e =
          { s with attempts := s.attempts ++ [e],
                   initializing := some s.attempts.length,
                   inflight := s.inflight ++ [s.attempts.length],
                   waiters := (c, s.attempts.length) :: s.waiters,
                   requestCounter := s.requestCounter + 1,
                   events := s.events ++ [SEvent.initReq e s.attempts.length] } := by
        simp [stepCall, he, hi, hinit]
      simp only [seqStep, hcall, hinf, List.nil_append] at hstep
      unfold stepComplete at hstep
      rw [if_pos (by simp)] at hstep
      injection hstep with hstep
      subst hstep
      cases out with
      | ok u =>
        refine ⟨rfl, by simp, fun _ => ⟨s.attempts.length, rfl, ?_⟩⟩
        simp only [getD_append_length]
        exact he.symm
      | error err =>
        exact ⟨rfl, by simp, fun h => absurd h (by simp)⟩
  · have hcall : stepCall s c e =
        { s with initialized := false,
                 lastEndpoint := some e,
                 attempts := s.attempts ++ [e],
                 initializing := some s.attempts.length,
                 inflight := s.inflight ++ [s.attempts.length],
                 waiters := (c, s.attempts.length) :: s.waiters,
                 requestCounter := s.requestCounter + 1,
                 events := s.events ++ [SEvent.initReq e s.attempts.length] } := by
      simp [stepCall, he]
    simp only [seqStep, hcall, hinf, List.nil_append] at hstep
    unfold stepComplete at hstep
    rw [if_pos (by simp)] at hstep
    injection hstep with hstep
    subst hstep
    cases out with
    | ok u =>
      refine ⟨rfl, by simp, fun _ => ⟨s.attempts.length, rfl, ?_⟩⟩
      simp only [getD_append_length]
    | error err =>
      exact ⟨rfl, by simp, fun h => absurd h (by simp)⟩

theorem seqRunFrom_inv (steps : List (Nat × List Char × Except Nat Unit)) :
    ∀ (s0 s : ClientSM), SeqInv s0 → seqRunFrom s0 steps = some s → SeqInv s := by
  induction steps with
  | nil =>
    intro s0 s h0 hrun
    injection hrun with hrun
    subst hrun
    exact h0
  | cons st rest ih =>
    intro s0 s h0 hrun
    rw [seqRunFrom] at hrun
    cases hs1 : seqStep s0 st with
    | none => rw [hs1] at hrun; exact absurd hrun (by simp)
    | some s1 =>
      rw [hs1] at hrun
      rcases st with ⟨c, e, out⟩
      exact ih s1 s (seqStep_preserves s0 c e out s1 h0 hs1) hrun

/-- Claim C6 (amended): a call whose resolved endpoint differs from the
remembered one resets the session to Uninitialized and starts exactly one
new handshake against the new endpoint before any further request; and in
every sequential (non-overlapping) execution the Ready/lastEndpoint
agreement invariant holds — a Ready session remembers exactly the endpoint
of the attempt that reached Ready.  (The unamended invariant fails when the
endpoint changes while a handshake is in flight: the stale attempt's
completion still marks the session Ready.) -/
theorem endpoint_change_invalidation :
    (∀ (s : ClientSM) (c : Nat) (e : List Char),
        s.lastEndpoint ≠ some e →
        (stepCall s c e).lastEndpoint = some e ∧
        (stepCall s c e).initialized = false ∧
        (stepCall s c e).initializing = some s.attempts.length ∧
        (stepCall s c e).attempts = s.attempts ++ [e] ∧
        (stepCall s c e).events =
          s.events ++ [SEvent.initReq e s.attempts.length]) ∧
    (∀ (steps : List (Nat × List Char × Except Nat Unit)) (s : ClientSM),
        seqRun steps = some s → SeqInv s) := by
  constructor
  · intro s c e he
    refine ⟨?_, ?_, ?_, ?_, ?_⟩ <;> simp [stepCall, he]
  · intro steps s hrun
    refine seqRunFrom_inv steps initialState s ⟨rfl, rfl, ?_⟩ hrun
    intro h
    exact absurd h (by decide)

theorem endpoint_change_invalidation_witness :
    (stepCall c5Ready 4 ("B".toList)).lastEndpoint = some ("B".toList) ∧
    (stepCall c5Ready 4 ("B".toList)).initializing = some c5Ready.attempts.length ∧
    SeqInv ((seqRun [(0, "A".toList, Except.ok ()),
      (1, "B".toList, Except.ok ())]).getD initialState) :=
  ⟨(endpoint_change_invalidation.1 c5Ready 4 ("B".toList) (by decide)).1,
   (endpoint_change_invalidation.1 c5Ready 4 ("B".toList) (by decide)).2.2.1,
   endpoint_change_invalidation.2
     [(0, "A".toList, Except.ok ()), (1, "B".toList, Except.ok ())] _ rfl⟩

theorem ensureReady_idempotent_when_ready_witness :
    stepCall c5Ready 1 ("A".toList) =
      { c5Ready with results := (1, Except.ok ()) :: c5Ready.results } ∧
    Option.map ClientSM.events
        (runActs initialState
          [Act.call 2 ("A".toList), Act.complete 0 (Except.ok ()),
           Act.call 3 ("A".toList)]) =
      some [SEvent.initReq ("A".toList) 0, SEvent.initNotif ("A".toList) 0] :=
  ⟨ensureReady_idempotent_when_ready.1 c5Ready 1 ("A".toList) (by decide) (by decide),
   ensureReady_idempotent_when_ready.2 ("A".toList) 2 3⟩

/-!
Section: Cancellation merger and `sendJsonRpc`
(`pi-exa-mcp/extensions/index.ts:630-666` and `507-554`)
-/

/-- The resource state of one merged cancellation signal: whether the
timeout timer is pending, whether the propagation listener is attached to
the caller's signal, whether the merged signal is aborted, and (ghost)
whether the cleanup action has run. -/
structure MergedSignal where
  timerPending : Bool
  listenerAttached : Bool
  aborted : Bool
  cleanupRan : Bool
deriving DecidableEq

/-- Function `createMergedSignal`: if the parent signal is already aborted the merged
signal starts aborted (no listener attached); otherwise a propagation
listener is attached when a parent signal exists; a timer is started when
`timeoutMs > 0`. -/
def createMergedSignal (parentPresent parentAborted : Bool) (timeoutMs : Int) :
    MergedSignal :=
  { timerPending := decide (0 < timeoutMs),
    listenerAttached := parentPresent && !parentAborted,
    aborted := parentPresent && parentAborted,
    cleanupRan := false }

/-- The returned cleanup action: `clearTimeout` plus `removeEventListener`
(both are no-ops when the timer already fired or the listener was already
removed, so this is total on any intermediate state). -/
def cleanup (m : MergedSignal) : MergedSignal :=
  { m with timerPending := false, listenerAttached := false, cleanupRan := true }

/-- The errors a JSON-RPC send or decode can raise. -/
inductive RpcError where
  | fetchFailed (err : Nat)
  | httpError (status : Nat) (body : List Char)
  | jsonParseFailed
  | sse (msg : List Char)
  | unexpectedContentType (ct : List Char) (body : List Char)
  | noMatchingId
  | invalidPayload
  | mcpError (code : Option Json) (message : Option Json)

/-- What the platform `fetch` produced: a thrown error (network failure or
abort), or a response with a status, content type, body text, the result of
`response.json()` (`none` models a parse throw), and the SSE chunk list. -/
inductive FetchOutcome where
  | thrown (err : Nat)
  | resp (status : Nat) (contentType : List Char) (bodyText : List Char)
      (bodyJson : Option Json) (sseChunks : List (List Char))

/-- Boolean prefix test on character lists. -/
def isPrefixOfB : List Char → List Char → Bool
  | [], _ => true
  | _ :: _, [] => false
  | a :: as, b :: bs => a == b && isPrefixOfB as bs

/-- Boolean substring test, modelling `String.prototype.includes` as used
on the `content-type` header. -/
def isInfixOfB (needle : List Char) : List Char → Bool
  | [] => needle.isEmpty
  | c :: rest => isPrefixOfB needle (c :: rest) || isInfixOfB needle rest

/-- Method `sendJsonRpc` of the exa client: acquires the merged signal, runs the
transport body (whose every branch either returns or throws), and the
`finally` applies the cleanup action on all exit paths.  The returned pair
is the body's outcome and the final state of the merged-signal resource. -/
def sendJsonRpcExa (parentPresent parentAborted : Bool) (timeoutMs : Int)
    (isNotification : Bool) (p : List Char → Option Json) (requestId : List Char)
    (o : FetchOutcome) : Except RpcError (Option Json) × MergedSignal :=
  let ms := createMergedSignal parentPresent parentAborted timeoutMs
  let body : Except RpcError (Option Json) :=
    match o with
    | .thrown err => .error (.fetchFailed err)
    | .resp status ct text bodyJson chunks =>
      if status = 204 ∨ status = 202 then .ok none
      else if ¬(200 ≤ status ∧ status ≤ 299) then .error (.httpError status text)
      else if isNotification then .ok none
      else if isInfixOfB ("application/json".toList) ct then
        match bodyJson with
        | some j => .ok (some j)
        | none => .error .jsonParseFailed
      else if isInfixOfB ("text/event-stream".toList) ct then
        match parseSseResponseExa p requestId chunks with
        | .ok j => .ok (some j)
        | .error m => .error (.sse m)
      else .error (.unexpectedContentType ct text)
  (body, cleanup ms)

/-- Claim C7: on every exit path of a JSON-RPC send — success, thrown
error, or cancellation — the cleanup action of the merged signal is invoked
before the operation returns, and after cleanup no timeout timer remains
pending and no abort listener remains attached (from any intermediate
resource state, whichever path completed first). -/
theorem sendJsonRpc_always_cleans (pp pa : Bool) (tm : Int) (isNotif : Bool)
    (p : List Char → Option Json) (rid : List Char) (o : FetchOutcome) :
    (sendJsonRpcExa pp pa tm isNotif p rid o).2.cleanupRan = true ∧
    (sendJsonRpcExa pp pa tm isNotif p rid o).2.timerPending = false ∧
    (sendJsonRpcExa pp pa tm isNotif p rid o).2.listenerAttached = false ∧
    (∀ m : MergedSignal,
      (cleanup m).timerPending = false ∧ (cleanup m).listenerAttached = false) :=
  ⟨rfl, rfl, rfl, fun _ => ⟨rfl, rfl⟩⟩

/-!
Section: `sendRequest` / `extractJsonRpcResponse` / `callTool`
(`pi-exa-mcp/extensions/index.ts:412-419`, `464-487`, `562-576`)
-/

/-- JavaScript truthiness of a parsed JSON value, as used by
`if (json.error)`. -/
def jsTruthy : Json → Bool
  | .null => false
  | .bool b => b
  | .num n => decide (n ≠ 0)
  | .str s => decide (s ≠ [])
  | .arr _ => true
  | .obj _ => true

/-- Function `isJsonRpcResponse`: a record whose `jsonrpc` field is the string
`"2.0"`. -/
def isJsonRpcResponse (v : Json) : Bool :=
  isRecord v &&
    match v.getField ("jsonrpc".toList) with
    | some (.str s) => s = "2.0".toList
    | _ => false

/-- Function `extractJsonRpcResponse`: an array is searched for the element whose
`id` equals the request id; otherwise the document itself must be JSON-RPC
shaped. -/
def extractJsonRpcResponse (response : Json) (requestId : List Char) :
    Except RpcError Json :=
  match response with
  | .arr items =>
    match items.find? (fun item => isJsonRpcResponse item && idMatches item requestId) with
    | some m => .ok m
    | none => .error .noMatchingId
  | _ =>
    if isJsonRpcResponse response then .ok response
    else .error .invalidPayload

/-- The request id allocated by `nextId` for the exa client:
`exa-mcp-${counter}` after the counter is incremented. -/
def ridString (n : Nat) : List Char := "exa-mcp-".toList ++ toDecimal n

/-- The tail of `sendRequest` applied to the decoded transport response:
extract the matching JSON-RPC Response and, on a truthy `error` field,
throw a protocol error embedding the remote code and message; otherwise
return the `result` payload. -/
def sendRequestResult (response : Json) (requestCounter : Nat) :
    Except RpcError (Option Json) :=
  match extractJsonRpcResponse response (ridString (requestCounter + 1)) with
  | .error er => .error er
  | .ok json =>
    match json.getField ("error".toList) with
    | some e =>
      if jsTruthy e then
        .error (.mcpError (e.getField ("code".toList)) (e.getField ("message".toList)))
      else .ok (json.getField ("result".toList))
    | none => .ok (json.getField ("result".toList))

/-- Method `callTool` on a session that is Ready for the current endpoint:
`ensureInitialized` runs its synchronous immediate-return path, then
`sendRequest` allocates a fresh id and processes the decoded Response. -/
def callToolWhenReady (s : ClientSM) (c : Nat) (e : List Char) (response : Json) :
    ClientSM × Except RpcError (Option Json) :=
  let s1 := stepCall s c e
  ({ s1 with requestCounter := s1.requestCounter + 1 },
   sendRequestResult response s1.requestCounter)

/-- Claim C8: on a Ready session, a `tools/call` whose Response carries a
(truthy) JSON-RPC `error` field makes `callTool` fail with a protocol error
embedding the remote code and message, while the session stays Ready for
the same endpoint, no handshake event is emitted, and the next call on the
same endpoint performs no new handshake either. -/
theorem calltool_error_keeps_ready (s : ClientSM) (c c2 : Nat) (e : List Char)
    (response json errObj : Json)
    (hready : s.initialized = true) (hend : s.lastEndpoint = some e)
    (hex : extractJsonRpcResponse response (ridString (s.requestCounter + 1)) =
      Except.ok json)
    (herr : json.getField ("error".toList) = some errObj)
    (htr : jsTruthy errObj = true) :
    (callToolWhenReady s c e response).2 =
      Except.error (.mcpError (errObj.getField ("code".toList))
        (errObj.getField ("message".toList))) ∧
    (callToolWhenReady s c e response).1.initialized = true ∧
    (callToolWhenReady s c e response).1.lastEndpoint = some e ∧
    (callToolWhenReady s c e response).1.events = s.events ∧
    (stepCall (callToolWhenReady s c e response).1 c2 e).events = s.events := by
  have hcall : stepCall s c e =
      { s with results := (c, Except.ok ()) :: s.results } := by
    simp [stepCall, hready, hend]
  refine ⟨?_, ?_, ?_, ?_, ?_⟩
  · show sendRequestResult response (stepCall s c e).requestCounter = _
    rw [hcall]
    show sendRequestResult response s.requestCounter = _
    unfold sendRequestResult
    rw [hex]
    dsimp only
    rw [herr]
    dsimp only
    simp [htr]
  · simp [callToolWhenReady, hcall, hready]
  · simp [callToolWhenReady, hcall, hend]
  · simp [callToolWhenReady, hcall]
  · simp [callToolWhenReady, stepCall, hcall, hready, hend]

/-- A `tools/call` Response carrying a remote error, matching the request
id the Ready client `c5Ready` allocates next (`exa-mcp-2`). -/
def errResponse : Json :=
  .obj [("jsonrpc".toList, .str "2.0".toList),
        ("id".toList, .str "exa-mcp-2".toList),
        ("error".toList, .obj [("code".toList, .num (-32600)),
                               ("message".toList, .str "bad request".toList)])]

/-- The remote error object inside `errResponse`. -/
def errObjDemo : Json :=
  .obj [("code".toList, .num (-32600)), ("message".toList, .str "bad request".toList)]

theorem calltool_error_keeps_ready_witness :
    (callToolWhenReady c5Ready 1 ("A".toList) errResponse).2 =
      Except.error (.mcpError (errObjDemo.getField ("code".toList))
        (errObjDemo.getField ("message".toList))) ∧
    (callToolWhenReady c5Ready 1 ("A".toList) errResponse).1.initialized = true ∧
    (stepCall (callToolWhenReady c5Ready 1 ("A".toList) errResponse).1 2
      ("A".toList)).events = c5Ready.events := by
  have h := calltool_error_keeps_ready c5Ready 1 2 ("A".toList) errResponse
    errResponse errObjDemo (by decide) (by decide) rfl rfl rfl
  exact ⟨h.1, h.2.1, h.2.2.2.2⟩

/-!
Section: Output bounder: `truncateHead`

`truncateHead` is imported by both packages from the external package
`@mariozechner/pi-coding-agent`; its implementation is not part of this
repository, so it is modelled from spec §4.5.
-/

/-- Which budget caused the cut (`null` in the source when no cut). -/
inductive TruncatedBy where
  | lines
  | bytes
  | nocut
deriving DecidableEq

/-- The `BoundingResult` record of the spec's data model; `content` is the
(possibly cut) text as UTF-8 bytes. -/
structure BoundingResult where
  content : List Nat
  truncated : Bool
  truncatedBy : TruncatedBy
  totalLines : Nat
  totalBytes : Nat
  outputLines : Nat
  outputBytes : Nat
  maxLines : Nat
  maxBytes : Nat
  firstLineExceedsLimit : Bool
deriving DecidableEq

/-- Number of lines of a byte string (split on the newline byte 10); the
empty text counts as zero lines. -/
def countLines (t : List Nat) : Nat := if t = [] then 0 else t.count 10 + 1

/-- The head of the text holding at most `m` lines: stop before the
newline that would start line `m + 1`. -/
def takeLines : Nat → List Nat → List Nat
  | 0, _ => []
  | _ + 1, [] => []
  | m + 1, b :: rest =>
    if b = 10 then
      match m with
      | 0 => []
      | m' + 1 => 10 :: takeLines (m' + 1) rest
    else b :: takeLines (m + 1) rest

/-- Bytes of the first line. -/
def firstLine (t : List Nat) : List Nat := t.takeWhile (fun b => !(b == 10))

/-- Modelled from the spec: `truncateHead` (§4.5 Output Bounder) is
implemented in the external package `@mariozechner/pi-coding-agent` and its
source is not in this repository.  Counts total lines and total UTF-8
bytes; within both budgets the text is returned unchanged with
`truncated = false`; otherwise the head of the text is taken up to
whichever budget binds first (the line-capped head, then byte-capped),
recording the binding dimension, and `firstLineExceedsLimit` flags a first
line longer than `maxBytes`. -/
def truncateHead (text : List Nat) (maxLines maxBytes : Nat) : BoundingResult :=
  let totalLines := countLines text
  let totalBytes := text.length
  if totalLines ≤ maxLines ∧ totalBytes ≤ maxBytes then
    { content := text, truncated := false, truncatedBy := .nocut,
      totalLines := totalLines, totalBytes := totalBytes,
      outputLines := totalLines, outputBytes := totalBytes,
      maxLines := maxLines, maxBytes := maxBytes,
      firstLineExceedsLimit := decide ((firstLine text).length > maxBytes) }
  else
    let lineCapped := takeLines maxLines text
    let content := lineCapped.take maxBytes
    { content := content, truncated := true,
      truncatedBy := if lineCapped.length > maxBytes then .bytes else .lines,
      totalLines := totalLines, totalBytes := totalBytes,
      outputLines := countLines content, outputBytes := content.length,
      maxLines := maxLines, maxBytes := maxBytes,
      firstLineExceedsLimit := decide ((firstLine text).length > maxBytes) }

theorem countLines_takeLines (t : List Nat) : ∀ m, countLines (takeLines m t) ≤ m := by
  induction t with
  | nil =>
    intro m
    cases m <;> simp [takeLines, countLines]
  | cons b rest ih =>
    intro m
    cases m with
    | zero => simp [takeLines, countLines]
    | succ m =>
      by_cases hb : b = 10
      · cases m with
        | zero => simp [takeLines, hb, countLines]
        | succ m' =>
          have hu := ih (m' + 1)
          simp only [takeLines, hb, if_true]
          by_cases hu0 : takeLines (m' + 1) rest = []
          · rw [hu0]
            have h1 : countLines [10] = 2 := rfl
            omega
          · have h1 : countLines (takeLines (m' + 1) rest) =
                (takeLines (m' + 1) rest).count 10 + 1 := by
              simp [countLines, hu0]
            have h2 : countLines (10 :: takeLines (m' + 1) rest) =
                (takeLines (m' + 1) rest).count 10 + 2 := by
              simp [countLines, List.count_cons]
            omega
      · have hu := ih (m + 1)
        simp only [takeLines, hb, if_false]
        by_cases hu0 : takeLines (m + 1) rest = []
        · rw [hu0]
          have h1 : countLines [b] = 1 := by
            simp [countLines, List.count_cons, hb]
          omega
        · have h1 : countLines (takeLines (m + 1) rest) =
              (takeLines (m + 1) rest).count 10 + 1 := by
            simp [countLines, hu0]
          have h2 : countLines (b :: takeLines (m + 1) rest) =
              (takeLines (m + 1) rest).count 10 + 1 := by
            simp [countLines, List.count_cons, hb]
          omega

theorem countLines_take (n : Nat) (t : List Nat) :
    countLines (t.take n) ≤ countLines t := by
  by_cases h : t.take n = []
  · simp [countLines, h]
  · have ht : t ≠ [] := by
      intro h0
      rw [h0] at h
      exact h (List.take_nil)
    have hcount : (t.take n).count 10 ≤ t.count 10 :=
      (List.take_sublist n t).count_le 10
    simp only [countLines, h, ht, if_false]
    omega

/-- Claim C9 (spec-modelled): the bounding result satisfies
`outputLines ≤ maxLines` and `outputBytes ≤ maxBytes` whenever truncation
occurred, and `truncated = false` exactly when the input already satisfied
both budgets, in which case the content is the input unchanged. -/
theorem truncateHead_bounds (text : List Nat) (maxLines maxBytes : Nat) :
    ((truncateHead text maxLines maxBytes).truncated = true →
      (truncateHead text maxLines maxBytes).outputLines ≤
        (truncateHead text maxLines maxBytes).maxLines ∧
      (truncateHead text maxLines maxBytes).outputBytes ≤
        (truncateHead text maxLines maxBytes).maxBytes) ∧
    ((truncateHead text maxLines maxBytes).truncated = false ↔
      (countLines text ≤ maxLines ∧ text.length ≤ maxBytes)) ∧
    ((truncateHead text maxLines maxBytes).truncated = false →
      (truncateHead text maxLines maxBytes).content = text) := by
  by_cases h : countLines text ≤ maxLines ∧ text.length ≤ maxBytes
  · refine ⟨?_, ?_, ?_⟩ <;> simp [truncateHead, h]
  · refine ⟨?_, ?_, ?_⟩
    · intro _
      unfold truncateHead
      rw [if_neg h]
      dsimp only
      constructor
      · exact le_trans (countLines_take maxBytes (takeLines maxLines text))
          (countLines_takeLines text maxLines)
      · simp [List.length_take]
    · unfold truncateHead
      rw [if_neg h]
      dsimp only
      exact ⟨fun hf => absurd hf (by simp), fun hc => absurd hc h⟩
    · unfold truncateHead
      rw [if_neg h]
      dsimp only
      intro hf
      exact absurd hf (by simp)

theorem truncateHead_bounds_witness :
    (truncateHead [97, 10, 98, 10, 99] 1 100).outputLines ≤ 1 ∧
    (truncateHead [97, 10, 98, 10, 99] 1 100).outputBytes ≤ 100 ∧
    (truncateHead [97, 10, 98] 5 10).truncated = false ∧
    (truncateHead [97, 10, 98] 5 10).content = [97, 10, 98] := by
  refine ⟨((truncateHead_bounds [97, 10, 98, 10, 99] 1 100).1 (by decide)).1,
          ((truncateHead_bounds [97, 10, 98, 10, 99] 1 100).1 (by decide)).2,
          (truncateHead_bounds [97, 10, 98] 5 10).2.1.mpr (by decide),
          (truncateHead_bounds [97, 10, 98] 5 10).2.2 ?_⟩
  exact (truncateHead_bounds [97, 10, 98] 5 10).2.1.mpr (by decide)

/-!
Section: `resolveEffectiveLimits`
(`pi-exa-mcp/extensions/index.ts:259-269`, `pi-firecrawl-mcp/README.md:581-591`)
-/

/-- A resolved pair of byte/line limits. -/
structure EffLimits where
  maxBytes : Int
  maxLines : Int
deriving DecidableEq

/-- Per-call requested limits; either may be absent. -/
structure ReqLimits where
  maxBytes : Option Int
  maxLines : Option Int
deriving DecidableEq

/-- Function `resolveEffectiveLimits`: absent requested values default to the
configured maximum (`??`), then both are clamped with `Math.min`. -/
def resolveEffectiveLimits (requested : ReqLimits) (maxAllowed : EffLimits) :
    EffLimits :=
  let requestedBytes := requested.maxBytes.getD maxAllowed.maxBytes
  let requestedLines := requested.maxLines.getD maxAllowed.maxLines
  { maxBytes := min requestedBytes maxAllowed.maxBytes,
    maxLines := min requestedLines maxAllowed.maxLines }

/-- Claim C10: the effective limits never exceed the configured maxima; a
requested value within the configured maximum is returned verbatim; an
absent requested value defaults to the configured maximum. -/
theorem resolveEffectiveLimits_clamps (requested : ReqLimits)
    (maxAllowed : EffLimits) :
    (resolveEffectiveLimits requested maxAllowed).maxBytes ≤ maxAllowed.maxBytes ∧
    (resolveEffectiveLimits requested maxAllowed).maxLines ≤ maxAllowed.maxLines ∧
    (∀ b, requested.maxBytes = some b → b ≤ maxAllowed.maxBytes →
      (resolveEffectiveLimits requested maxAllowed).maxBytes = b) ∧
    (∀ l, requested.maxLines = some l → l ≤ maxAllowed.maxLines →
      (resolveEffectiveLimits requested maxAllowed).maxLines = l) ∧
    (requested.maxBytes = none →
      (resolveEffectiveLimits requested maxAllowed).maxBytes = maxAllowed.maxBytes) ∧
    (requested.maxLines = none →
      (resolveEffectiveLimits requested maxAllowed).maxLines = maxAllowed.maxLines) := by
  refine ⟨min_le_right _ _, min_le_right _ _, ?_, ?_, ?_, ?_⟩
  · intro b hb hle
    simp [resolveEffectiveLimits, hb, min_eq_left hle]
  · intro l hl hle
    simp [resolveEffectiveLimits, hl, min_eq_left hle]
  · intro hb
    simp [resolveEffectiveLimits, hb]
  · intro hl
    simp [resolveEffectiveLimits, hl]

theorem resolveEffectiveLimits_clamps_witness :
    (resolveEffectiveLimits ⟨some 200, some 2⟩ ⟨120, 10⟩).maxBytes ≤ 120 ∧
    (resolveEffectiveLimits ⟨some 200, some 2⟩ ⟨120, 10⟩).maxLines = 2 ∧
    (resolveEffectiveLimits ⟨none, none⟩ ⟨120, 10⟩).maxBytes = 120 :=
  ⟨(resolveEffectiveLimits_clamps ⟨some 200, some 2⟩ ⟨120, 10⟩).1,
   (resolveEffectiveLimits_clamps ⟨some 200, some 2⟩ ⟨120, 10⟩).2.2.2.1 2 rfl
     (by decide),
   (resolveEffectiveLimits_clamps ⟨none, none⟩ ⟨120, 10⟩).2.2.2.2.1 rfl⟩

end PiMcp
